import Mathlib

/-!
# Verification of the folder-insight directory-size engine

Shallow embedding of `src/src-tauri/src/lib.rs`: the recursive size
computation `compute_dir_size_recursive`, the in-progress guard
`try_mark_in_progress`, and the listing command `analyze_directory`.

Modelling conventions:

* A filesystem subtree is an inductive `FS` value.  A `file` node is any
  directory entry whose `symlink_metadata` reports `is_dir() == false`
  (regular files and symlinks; `meta.len()` is its `size`).  A `dir` node
  is a readable directory with its entries.  A `denied` node is a path
  whose `fs::read_dir` fails (permission denied, not a directory,
  nonexistent, removed concurrently).  A `faulty` node is a directory
  whose traversal raises an internal fault (a Rust panic), used for the
  fault-injection scenarios of the spec; the fault fires after the cache
  check, during the traversal, before anything is written or emitted.
  Entries whose `symlink_metadata` call fails are skipped by the source
  (`Err(_) => continue`) and are not modelled.
* `SizeCache` (`Arc<Mutex<HashMap<String,(u64,u64)>>>`) is an association
  list threaded through the computation; `HashMap::insert` is modelled by
  consing, with lookup returning the newest binding.
* The rayon `par_iter().map(...).collect()` fork-join over subdirectories
  is sequentialised left-to-right: this is one legal linearisation of the
  lock-protected cache accesses, and `.collect()` completing before the
  parent's insert/emit is reflected by the parent event being appended
  after the concatenated child events.
* `app_handle.emit("folder-size-updated", ...)` is modelled by appending a
  `SizeUpdate` to the returned event list.
* A Rust panic escaping `compute_dir_size_recursive` is modelled by the
  function returning `none`; `std::panic::catch_unwind` in the caller is
  the `match` on that option.
* Machine integers (`u64`) are modelled as `Nat`; the source only ever
  adds entry sizes and counts, and overflow behaviour is not part of any
  claim.
* The interleaving of concurrent `try_mark_in_progress` callers is
  modelled by an explicit small-step transition system (`GState`,
  `applyAct`) whose atomic steps are exactly the two lock-protected
  sections of the source: the cache lookup (lines 170-173) and the
  in-progress check-and-insert (lines 178-184).
-/

/-- Payload of the `"folder-size-updated"` event (`struct SizeUpdate`,
lib.rs lines 33-38). -/
structure SizeUpdate where
  path : String
  size : Nat
  file_count : Nat
deriving DecidableEq, Repr

/-- The size cache: `HashMap<String, (u64, u64)>` as an association list;
the newest binding for a key shadows older ones. -/
abbrev Cache := List (String × (Nat × Nat))

/-- `cache.get(path)` for the modelled `HashMap`. -/
def cacheGet (c : Cache) (p : String) : Option (Nat × Nat) :=
  match c with
  | [] => none
  | (q, r) :: rest => if q = p then some r else cacheGet rest p

/-- `cache.insert(path, record)` for the modelled `HashMap`: the new
binding shadows any older one. -/
def cacheInsert (c : Cache) (p : String) (r : Nat × Nat) : Cache :=
  (p, r) :: c

/-- A filesystem subtree as seen by the source's traversal; see the
header comment for what each constructor models. -/
inductive FS : Type
  | file (path : String) (size : Nat)
  | dir (path : String) (entries : List FS)
  | denied (path : String)
  | faulty (path : String)
deriving Repr

/-- The full path string of a node (`entry.path().to_string_lossy()`). -/
def FS.path : FS → String
  | .file p _ => p
  | .dir p _ => p
  | .denied p => p
  | .faulty p => p

/-- `fs::symlink_metadata(..).is_dir()` for an entry: true for every
directory-like node (`dir`, `denied`, `faulty`), false for `file`. -/
def FS.isDirEntry : FS → Bool
  | .file _ _ => false
  | _ => true

/-- `meta.len()` of a non-directory entry; 0 on directory nodes (never
used there by the source). -/
def FS.entrySize : FS → Nat
  | .file _ s => s
  | _ => 0

/-- Total size accumulated from the non-directory entries of a directory
(`total_size += meta.len()` in the read loop, lib.rs line 110). -/
def directSize (entries : List FS) : Nat :=
  ((entries.filter (fun e => !e.isDirEntry)).map FS.entrySize).sum

/-- Number of non-directory entries of a directory
(`total_count += 1` in the read loop, lib.rs line 111). -/
def directCount (entries : List FS) : Nat :=
  (entries.filter (fun e => !e.isDirEntry)).length

/-- Outcome of one (non-panicking) run of `compute_dir_size_recursive`:
the returned `(total_size, total_count)` pair, the cache after the run,
and the events emitted during the run in emission order. -/
structure CompOut where
  res : Nat × Nat
  cache : Cache
  events : List SizeUpdate
deriving Repr, DecidableEq

mutual

/-- `compute_dir_size_recursive` (lib.rs lines 82-161).  Every branch
first performs the cache lookup of lines 87-92 and returns the cached
record with no filesystem access, no cache write and no event on a hit.
Otherwise: a `file` or `denied` node is a failing `fs::read_dir`
(lines 99-114 skipped), giving totals `(0,0)`; a `faulty` node is a
traversal that panics (`none`); a `dir` node accumulates its direct
non-directory entries, computes the subdirectories (lines 116-144),
inserts the aggregate into the cache (lines 146-149) and emits the
`folder-size-updated` event for its own path (lines 151-158). -/
def computeAux : FS → Cache → Option CompOut
  | .file p _, cache =>
    match cacheGet cache p with
    | some r => some ⟨r, cache, []⟩
    | none => some ⟨(0, 0), cacheInsert cache p (0, 0), [⟨p, 0, 0⟩]⟩
  | .denied p, cache =>
    match cacheGet cache p with
    | some r => some ⟨r, cache, []⟩
    | none => some ⟨(0, 0), cacheInsert cache p (0, 0), [⟨p, 0, 0⟩]⟩
  | .faulty p, cache =>
    match cacheGet cache p with
    | some r => some ⟨r, cache, []⟩
    | none => none
  | .dir p entries, cache =>
    match cacheGet cache p with
    | some r => some ⟨r, cache, []⟩
    | none =>
      let sub := computeSubdirs entries cache
      let total := (directSize entries + sub.res.1, directCount entries + sub.res.2)
      some ⟨total, cacheInsert sub.cache p total,
            sub.events ++ [⟨p, total.1, total.2⟩]⟩

/-- The `subdirs.par_iter().map(..).collect()` / summation of
lib.rs lines 116-144, sequentialised left-to-right: non-directory entries
are not recursed into (they were accumulated by `directSize` /
`directCount`); a panicking subdirectory (`none`) contributes `(0,0)`,
emits a zero `SizeUpdate` for its path (lines 125-137) and leaves the
cache untouched. -/
def computeSubdirs : List FS → Cache → CompOut
  | [], cache => ⟨(0, 0), cache, []⟩
  | t :: rest, cache =>
    if t.isDirEntry then
      let step : CompOut :=
        match computeAux t cache with
        | some out => out
        | none => ⟨(0, 0), cache, [⟨t.path, 0, 0⟩]⟩
      let acc := computeSubdirs rest step.cache
      ⟨(step.res.1 + acc.res.1, step.res.2 + acc.res.2), acc.cache,
       step.events ++ acc.events⟩
    else
      computeSubdirs rest cache

end

/-- The `(u64, u64)` pair a caller of `compute_dir_size_recursive`
observes through `std::panic::catch_unwind`: the returned pair, or
`(0,0)` when the computation panics (lib.rs lines 123-137). -/
def computeResult (t : FS) (c : Cache) : Nat × Nat :=
  match computeAux t c with
  | some out => out.res
  | none => (0, 0)

mutual

/-- All paths occurring in a subtree (the node itself and, for a
readable directory, everything below it). -/
def allPaths : FS → List String
  | .file p _ => [p]
  | .denied p => [p]
  | .faulty p => [p]
  | .dir p entries => p :: allPathsList entries

/-- All paths occurring in a list of subtrees. -/
def allPathsList : List FS → List String
  | [] => []
  | t :: rest => allPaths t ++ allPathsList rest

end

/-- The paths of the strict descendants of a node: everything below a
readable directory, nothing for the other node kinds. -/
def strictDescPaths : FS → List String
  | .dir _ entries => allPathsList entries
  | _ => []

mutual

/-- The spec's recursive aggregate, written from §4.4/§8 of the spec with
no cache and no events: a directory's record is the sum of the sizes (and
counts) of its direct non-directory entries plus the recursive records of
its subdirectory entries, a panicking and an unreadable subtree both
contributing `(0,0)`. -/
def specSize : FS → Nat × Nat
  | .dir _ entries => specSizeList entries
  | .file _ _ => (0, 0)
  | .denied _ => (0, 0)
  | .faulty _ => (0, 0)

/-- Sum of the spec-side contributions of a directory's entries: each
non-directory entry contributes `(its size, 1)`, each directory-like
entry contributes its recursive `specSize` (so `(0,0)` for a panicking
or unreadable subtree). -/
def specSizeList : List FS → Nat × Nat
  | [] => (0, 0)
  | .file _ sz :: rest =>
    let r := specSizeList rest
    (sz + r.1, 1 + r.2)
  | .dir p entries :: rest =>
    let a := specSize (.dir p entries)
    let r := specSizeList rest
    (a.1 + r.1, a.2 + r.2)
  | .denied p :: rest =>
    let a := specSize (.denied p)
    let r := specSizeList rest
    (a.1 + r.1, a.2 + r.2)
  | .faulty p :: rest =>
    let a := specSize (.faulty p)
    let r := specSizeList rest
    (a.1 + r.1, a.2 + r.2)

end

/-- A tree node of the listing answer (`struct FileNode`,
lib.rs lines 22-31). -/
inductive FileNode : Type
  | mk (name : String) (path : String) (size : Option Nat) (base_size : Nat)
       (is_dir : Bool) (file_count : Nat) (children : Option (List FileNode))

/-- `FileNode.name`: base name of the entry. -/
def FileNode.name : FileNode → String
  | .mk n _ _ _ _ _ _ => n

/-- `FileNode.path`: full path of the entry. -/
def FileNode.path : FileNode → String
  | .mk _ p _ _ _ _ _ => p

/-- `FileNode.size`: `None` means the recursive size is not yet known. -/
def FileNode.size : FileNode → Option Nat
  | .mk _ _ s _ _ _ _ => s

/-- `FileNode.base_size`: total size of the direct files of a directory. -/
def FileNode.base_size : FileNode → Nat
  | .mk _ _ _ b _ _ _ => b

/-- `FileNode.is_dir`. -/
def FileNode.is_dir : FileNode → Bool
  | .mk _ _ _ _ d _ _ => d

/-- `FileNode.file_count`. -/
def FileNode.file_count : FileNode → Nat
  | .mk _ _ _ _ _ c _ => c

/-- `FileNode.children`: populated only on the root of a listing answer. -/
def FileNode.children : FileNode → Option (List FileNode)
  | .mk _ _ _ _ _ _ ch => ch

/-- Rust's `str::to_lowercase`, modelled character-wise (the names in the
source and in the spec's examples are ASCII, where the two agree). -/
def lowercase (s : String) : String :=
  ⟨s.data.map Char.toLower⟩

/-- The comparator of `children.sort_by` (lib.rs lines 247-264):
directories before files; within the same kind descending by `size` with
`None` as 0 (`size_b.cmp(&size_a)`); ties by case-insensitive name
ascending. -/
def compareNodes (a b : FileNode) : Ordering :=
  if a.is_dir && !b.is_dir then .lt
  else if !a.is_dir && b.is_dir then .gt
  else
    let size_a := a.size.getD 0
    let size_b := b.size.getD 0
    if size_a ≠ size_b then compare size_b size_a
    else compare (lowercase a.name) (lowercase b.name)

/-- The non-strict order induced by the comparator: `a` may be placed
before `b`. -/
def nodeLe (a b : FileNode) : Prop := compareNodes a b ≠ Ordering.gt

instance : DecidableRel nodeLe := fun a b =>
  inferInstanceAs (Decidable (compareNodes a b ≠ Ordering.gt))

/-- `children.sort_by(|a, b| ...)`: Rust's stable sort with the source's
comparator, modelled by stable insertion sort. -/
def sortChildren (l : List FileNode) : List FileNode :=
  List.insertionSort nodeLe l

/-- The ordering the spec's words describe (§4.5 step 4): directories
strictly before files; within the same kind larger known-or-zero size
first; on equal sizes case-insensitive name ascending. -/
def specLe (a b : FileNode) : Prop :=
  (a.is_dir = true ∧ b.is_dir = false)
  ∨ (a.is_dir = b.is_dir ∧
      (b.size.getD 0 < a.size.getD 0
       ∨ (a.size.getD 0 = b.size.getD 0 ∧ lowercase a.name ≤ lowercase b.name)))

/-- `Path::file_name` of a Unix-style path string, `None` on a path with
no final component; used for the `name` field of listing nodes. -/
def fileName (p : String) : Option String :=
  ((p.splitOn "/").filter (fun s => s ≠ "")).getLast?

/-- One entry of the listing loop of `analyze_directory`
(lib.rs lines 200-242): files get their immediate size/count/base_size;
directories get `size = None`, `file_count = 0`, `base_size = 0` unless
the size cache already holds their aggregate, in which case
size/file_count are filled from the cache. -/
def buildChild (cache : Cache) (e : FS) : FileNode :=
  let is_dir := e.isDirEntry
  let file_size := if is_dir then 0 else e.entrySize
  let hit := if is_dir then cacheGet cache e.path else none
  match hit with
  | some (s, c) =>
    .mk ((fileName e.path).getD e.path) e.path (some s)
      (if is_dir then 0 else file_size) is_dir c none
  | none =>
    .mk ((fileName e.path).getD e.path) e.path
      (if is_dir then none else some file_size)
      (if is_dir then 0 else file_size) is_dir
      (if is_dir then 0 else 1) none

/-- `analyze_directory` (lib.rs lines 189-308) as far as its returned
value is concerned: `root` is the subtree at the normalized input path
(`file`/`denied` model a target whose `fs::read_dir` fails, yielding an
empty listing), `cache` is the size cache at the time of the call.  The
background handoff (lines 266-283) does not touch the returned node and
is modelled separately by the `GState` transition system.  The source
returns `Ok(FileNode { .. })` unconditionally (lines 299-308). -/
def analyzeDirectory (root : FS) (cache : Cache) : Except String FileNode :=
  let entriesRead : Option (List FS) :=
    match root with
    | .dir _ es => some es
    | _ => none
  let children :=
    match entriesRead with
    | some es => es.map (buildChild cache)
    | none => []
  let base :=
    match entriesRead with
    | some es => directSize es
    | none => 0
  let rootName := (fileName root.path).getD root.path
  let rootHit := cacheGet cache root.path
  .ok (.mk rootName root.path (rootHit.map (fun r => r.1)) base true
        ((rootHit.map (fun r => r.2)).getD 0)
        (some (sortChildren children)))

/-- Program counter of one caller inside `try_mark_in_progress`
(lib.rs lines 165-185): `start` = about to take the cache lock,
`checked` = observed a cache miss and released the cache lock, about to
take the in-progress lock, `done b` = returned `b`. -/
inductive Phase : Type
  | start
  | checked
  | done (b : Bool)
deriving DecidableEq, Repr

/-- Shared state for the in-progress guard model: the key set of
`SizeCache`, the `in_progress` set, and one `(path, program counter)`
pair per concurrent caller of `try_mark_in_progress`. -/
structure GState where
  cache : List String
  inprog : List String
  threads : List (String × Phase)
deriving DecidableEq, Repr

/-- An atomic step of the system: one caller executes one of the two
lock-protected sections of `try_mark_in_progress`, or the environment
finishes a computation (`cache.insert` under the cache lock, lib.rs
lines 146-149) or calls `end` (`in_progress.remove` under the guard
lock, lib.rs lines 280-281). -/
inductive GAct : Type
  | obsCache (i : Nat)
  | obsSet (i : Nat)
  | envInsert (q : String)
  | envEnd (q : String)
deriving DecidableEq, Repr

/-- Execute one atomic step; `none` when the chosen caller is not at the
corresponding program point.  `obsCache i` is the cache-lock section of
lines 170-176: on a hit the caller returns `false`, otherwise it
proceeds.  `obsSet i` is the guard-lock section of lines 178-184: if the
path is in the in-progress set the caller returns `false`, otherwise it
inserts the path and returns `true`. -/
def applyAct (s : GState) (a : GAct) : Option GState :=
  match a with
  | .obsCache i =>
    match s.threads[i]? with
    | some (q, .start) =>
      if q ∈ s.cache then
        some { s with threads := s.threads.set i (q, .done false) }
      else
        some { s with threads := s.threads.set i (q, .checked) }
    | _ => none
  | .obsSet i =>
    match s.threads[i]? with
    | some (q, .checked) =>
      if q ∈ s.inprog then
        some { s with threads := s.threads.set i (q, .done false) }
      else
        some { s with inprog := q :: s.inprog,
                      threads := s.threads.set i (q, .done true) }
    | _ => none
  | .envInsert q => some { s with cache := q :: s.cache }
  | .envEnd q => some { s with inprog := s.inprog.filter (fun r => r ≠ q) }

/-- Run a sequence of atomic steps from a state. -/
def runActs (s : GState) (acts : List GAct) : Option GState :=
  match acts with
  | [] => some s
  | a :: rest =>
    match applyAct s a with
    | some s' => runActs s' rest
    | none => none

/-- Number of callers for path `p` that have returned `true`. -/
def trueCountP (p : String) (s : GState) : Nat :=
  s.threads.countP (fun tp => tp.1 = p ∧ tp.2 = Phase.done true)

/-! ## Basic cache and computation lemmas -/

theorem cacheGet_insert_self (c : Cache) (p : String) (r : Nat × Nat) :
    cacheGet (cacheInsert c p r) p = some r := by
  simp [cacheGet, cacheInsert]

theorem cacheGet_insert_ne (c : Cache) (p q : String) (r : Nat × Nat)
    (h : p ≠ q) : cacheGet (cacheInsert c p r) q = cacheGet c q := by
  simp [cacheGet, cacheInsert, h]

/-- On a cache hit the computation returns the cached record at once,
with no cache write and no event. -/
theorem computeAux_cached (t : FS) (c : Cache) (r : Nat × Nat)
    (h : cacheGet c t.path = some r) : computeAux t c = some ⟨r, c, []⟩ := by
  cases t <;> simp only [FS.path] at h <;> simp [computeAux, h]

/-- After a completed run, the computed path maps to the returned record
in the resulting cache. -/
theorem computeAux_cache_self (t : FS) (c : Cache) (out : CompOut)
    (h : computeAux t c = some out) :
    cacheGet out.cache t.path = some out.res := by
  cases t with
  | file p sz =>
    simp only [computeAux] at h
    cases hc : cacheGet c p <;> rw [hc] at h <;>
      simp at h <;> subst h <;> simp [FS.path]
    · exact cacheGet_insert_self ..
    · exact hc
  | denied p =>
    simp only [computeAux] at h
    cases hc : cacheGet c p <;> rw [hc] at h <;>
      simp at h <;> subst h <;> simp [FS.path]
    · exact cacheGet_insert_self ..
    · exact hc
  | faulty p =>
    simp only [computeAux] at h
    cases hc : cacheGet c p <;> rw [hc] at h <;> simp at h
    subst h
    simpa [FS.path] using hc
  | dir p entries =>
    simp only [computeAux] at h
    cases hc : cacheGet c p <;> rw [hc] at h <;> simp at h <;> subst h <;>
      simp [FS.path]
    · exact cacheGet_insert_self ..
    · exact hc

/-! ## Events of a computation -/

mutual

/-- Every event emitted by a run of the computation is for a path inside
the computed subtree. -/
theorem eventsSubset (t : FS) (c : Cache) (out : CompOut)
    (h : computeAux t c = some out) :
    ∀ e ∈ out.events, e.path ∈ allPaths t := by
  cases t with
  | file p sz =>
    simp only [computeAux] at h
    cases hc : cacheGet c p <;> rw [hc] at h <;> simp at h <;> subst h <;>
      simp [allPaths]
  | denied p =>
    simp only [computeAux] at h
    cases hc : cacheGet c p <;> rw [hc] at h <;> simp at h <;> subst h <;>
      simp [allPaths]
  | faulty p =>
    simp only [computeAux] at h
    cases hc : cacheGet c p <;> rw [hc] at h <;> simp at h
    subst h
    simp
  | dir p entries =>
    simp only [computeAux] at h
    cases hc : cacheGet c p <;> rw [hc] at h <;> simp at h <;> subst h
    · intro e he
      simp only at he
      rw [List.mem_append] at he
      rcases he with he | he
      · exact List.mem_cons_of_mem _ (eventsSubsetList entries c e he)
      · simp at he
        subst he
        simp [allPaths]
    · simp

/-- Every event emitted while processing a list of subdirectory entries
is for a path inside one of those subtrees (the zero event of a
panicking branch included). -/
theorem eventsSubsetList (l : List FS) (c : Cache) :
    ∀ e ∈ (computeSubdirs l c).events, e.path ∈ allPathsList l := by
  match l with
  | [] => intro e he; simp [computeSubdirs] at he
  | t :: rest =>
    intro e he
    rw [computeSubdirs] at he
    by_cases hd : t.isDirEntry
    · simp only [hd, if_true] at he
      cases hca : computeAux t c with
      | none =>
        rw [hca] at he
        simp at he
        rcases he with he | he
        · rw [allPathsList, List.mem_append]
          left
          rw [he]
          cases t <;> simp [allPaths, FS.path]
        · rw [allPathsList, List.mem_append]
          exact Or.inr (eventsSubsetList rest c e he)
      | some out =>
        rw [hca] at he
        simp at he
        rcases he with he | he
        · rw [allPathsList, List.mem_append]
          exact Or.inl (eventsSubset t c out hca e he)
        · rw [allPathsList, List.mem_append]
          exact Or.inr (eventsSubsetList rest out.cache e he)
    · simp only [hd] at he
      simp at he
      rw [allPathsList, List.mem_append]
      exact Or.inr (eventsSubsetList rest c e he)

end

/-! ## Claim theorems: error handling of the recursive computation -/

/-- C5.  The recursive size computation always returns a `SizeRecord`
and never propagates an error to its caller: for every node that is not
an injected fault the result is `some`, and a directory whose
`fs::read_dir` fails (here `FS.denied`, uncached) is treated as empty,
returning `(0,0)`, caching `(0,0)` and emitting a zero event. -/
theorem claim_C5_never_fails :
    (∀ (t : FS) (c : Cache), (∀ p, t ≠ FS.faulty p) →
      (computeAux t c).isSome = true)
    ∧ (∀ (p : String) (c : Cache), cacheGet c p = none →
        computeAux (FS.denied p) c =
          some ⟨(0, 0), cacheInsert c p (0, 0), [⟨p, 0, 0⟩]⟩) := by
  constructor
  · intro t c hnf
    cases t with
    | file p sz => simp only [computeAux]; cases cacheGet c p <;> simp
    | denied p => simp only [computeAux]; cases cacheGet c p <;> simp
    | dir p entries => simp only [computeAux]; cases cacheGet c p <;> simp
    | faulty p => exact absurd rfl (hnf p)
  · intro p c h
    simp [computeAux, h]

/-- Witness for C5 at a concrete unreadable directory. -/
theorem claim_C5_never_fails_witness :
    (computeAux (FS.denied "d") []).isSome = true
    ∧ computeAux (FS.denied "d") [] =
        some ⟨(0, 0), cacheInsert [] "d" (0, 0), [⟨"d", 0, 0⟩]⟩ :=
  ⟨claim_C5_never_fails.1 (FS.denied "d") []
      (fun _ h => FS.noConfusion h),
   claim_C5_never_fails.2 "d" [] rfl⟩

/-- C6.  Memoization short-circuit and idempotence: a cached path is
answered from the cache immediately, with no event, no cache write and no
filesystem access (the result does not depend on the tree's contents);
consequently a second call for the same path after a completed first call
returns the identical record. -/
theorem claim_C6_idempotent :
    (∀ (t : FS) (c : Cache) (r : Nat × Nat), cacheGet c t.path = some r →
      computeAux t c = some ⟨r, c, []⟩)
    ∧ (∀ (t : FS) (c : Cache) (out : CompOut), computeAux t c = some out →
        ∀ t' : FS, t'.path = t.path →
          computeAux t' out.cache = some ⟨out.res, out.cache, []⟩) := by
  constructor
  · exact computeAux_cached
  · intro t c out h t' hp
    apply computeAux_cached
    rw [hp]
    exact computeAux_cache_self t c out h

/-- Witness for C6: after computing a directory holding one 5-byte file,
a second call for the same path returns the same record from the cache,
even when handed a different tree for that path. -/
theorem claim_C6_idempotent_witness :
    computeAux (FS.dir "r" []) [("r", (5, 1))] =
      some ⟨(5, 1), [("r", (5, 1))], []⟩ :=
  claim_C6_idempotent.2 (FS.dir "r" [FS.file "r/a" 5]) []
    ⟨(5, 1), [("r", (5, 1))], [⟨"r", 5, 1⟩]⟩
    (by decide) (FS.dir "r" []) rfl

/-- C3.  Bottom-up event order: in any (non-hit, non-panicking) run, the
event for the computed directory itself is the final event of that run,
and every earlier event of the run is for a strict descendant — so a
parent's event never fires before the events of the descendants it
computed. -/
theorem claim_C3_parent_event_last :
    ∀ (t : FS) (c : Cache) (out : CompOut),
      cacheGet c t.path = none → computeAux t c = some out →
      ∃ es, out.events = es ++ [⟨t.path, out.res.1, out.res.2⟩]
        ∧ ∀ e ∈ es, e.path ∈ strictDescPaths t := by
  intro t c out hc h
  cases t with
  | file p sz =>
    simp only [FS.path] at hc
    simp [computeAux, hc] at h
    subst h
    exact ⟨[], by simp [FS.path], by simp⟩
  | denied p =>
    simp only [FS.path] at hc
    simp [computeAux, hc] at h
    subst h
    exact ⟨[], by simp [FS.path], by simp⟩
  | faulty p =>
    simp only [FS.path] at hc
    simp [computeAux, hc] at h
  | dir p entries =>
    simp only [FS.path] at hc
    simp [computeAux, hc] at h
    subst h
    refine ⟨(computeSubdirs entries c).events, by simp [FS.path], ?_⟩
    intro e he
    simpa [strictDescPaths] using eventsSubsetList entries c e he

/-- Witness for C3 at a two-level concrete tree: the run's events are
the subdirectory's event followed by the root's event. -/
theorem claim_C3_parent_event_last_witness :
    ∃ es, ([⟨"r/s", 7, 1⟩, ⟨"r", 7, 1⟩] : List SizeUpdate) = es ++ [⟨"r", 7, 1⟩]
      ∧ ∀ e ∈ es,
          e.path ∈ strictDescPaths (FS.dir "r" [FS.dir "r/s" [FS.file "r/s/b" 7]]) :=
  claim_C3_parent_event_last (FS.dir "r" [FS.dir "r/s" [FS.file "r/s/b" 7]]) []
    ⟨(7, 1), [("r", (7, 1)), ("r/s", (7, 1))], [⟨"r/s", 7, 1⟩, ⟨"r", 7, 1⟩]⟩
    rfl (by decide)

/-! ## Cache frame lemmas and decomposition of the subdirectory fold -/

mutual

/-- A run only writes cache entries for paths inside the computed
subtree: every other key keeps its old binding. -/
theorem cacheFrame (t : FS) (c : Cache) (out : CompOut)
    (h : computeAux t c = some out) :
    ∀ q, q ∉ allPaths t → cacheGet out.cache q = cacheGet c q := by
  cases t with
  | file p sz =>
    intro q hq
    simp [allPaths] at hq
    simp only [computeAux] at h
    cases hc : cacheGet c p <;> rw [hc] at h <;> simp at h <;> subst h
    · simp [cacheGet_insert_ne _ _ _ _ (Ne.symm hq)]
    · rfl
  | denied p =>
    intro q hq
    simp [allPaths] at hq
    simp only [computeAux] at h
    cases hc : cacheGet c p <;> rw [hc] at h <;> simp at h <;> subst h
    · simp [cacheGet_insert_ne _ _ _ _ (Ne.symm hq)]
    · rfl
  | faulty p =>
    intro q hq
    simp only [computeAux] at h
    cases hc : cacheGet c p <;> rw [hc] at h <;> simp at h
    subst h
    rfl
  | dir p entries =>
    intro q hq
    simp [allPaths] at hq
    simp only [computeAux] at h
    cases hc : cacheGet c p <;> rw [hc] at h <;> simp at h <;> subst h
    · simp only
      rw [cacheGet_insert_ne _ _ _ _ (Ne.symm hq.1)]
      exact cacheFrameList entries c q hq.2
    · rfl

/-- Processing a list of subdirectory entries only writes cache entries
for paths inside those subtrees. -/
theorem cacheFrameList (l : List FS) (c : Cache) :
    ∀ q, q ∉ allPathsList l →
      cacheGet (computeSubdirs l c).cache q = cacheGet c q := by
  match l with
  | [] => intro q _; simp [computeSubdirs]
  | t :: rest =>
    intro q hq
    rw [allPathsList, List.mem_append] at hq
    push_neg at hq
    rw [computeSubdirs]
    by_cases hd : t.isDirEntry
    · simp only [hd, if_true]
      cases hca : computeAux t c with
      | none =>
        show cacheGet (computeSubdirs rest c).cache q = cacheGet c q
        exact cacheFrameList rest c q hq.2
      | some out =>
        show cacheGet (computeSubdirs rest out.cache).cache q = cacheGet c q
        rw [cacheFrameList rest out.cache q hq.2]
        exact cacheFrame t c out hca q hq.1
    · simp only [hd]
      simp only [Bool.false_eq_true, if_false]
      exact cacheFrameList rest c q hq.2

end

/-- The subdirectory fold splits over list concatenation: the second part
runs from the cache produced by the first, and results, caches and event
lists combine in order. -/
theorem computeSubdirs_append (xs ys : List FS) (c : Cache) :
    computeSubdirs (xs ++ ys) c =
      ⟨((computeSubdirs xs c).res.1 + (computeSubdirs ys (computeSubdirs xs c).cache).res.1,
        (computeSubdirs xs c).res.2 + (computeSubdirs ys (computeSubdirs xs c).cache).res.2),
       (computeSubdirs ys (computeSubdirs xs c).cache).cache,
       (computeSubdirs xs c).events ++ (computeSubdirs ys (computeSubdirs xs c).cache).events⟩ := by
  induction xs generalizing c with
  | nil => simp [computeSubdirs]
  | cons t rest ih =>
    by_cases hd : t.isDirEntry
    · cases hca : computeAux t c with
      | none =>
        rw [List.cons_append, computeSubdirs, computeSubdirs]
        simp only [hd, if_true, hca]
        rw [ih]
        simp [Nat.add_assoc]
      | some out =>
        rw [List.cons_append, computeSubdirs, computeSubdirs]
        simp only [hd, if_true, hca]
        rw [ih]
        simp [Nat.add_assoc]
    · rw [List.cons_append, computeSubdirs, computeSubdirs]
      simp only [hd, Bool.false_eq_true, if_false]
      exact ih c

/-- A faulty middle entry contributes nothing to the direct-file size. -/
theorem directSize_middle_faulty (pre post : List FS) (q : String) :
    directSize (pre ++ FS.faulty q :: post) = directSize (pre ++ post) := by
  simp [directSize, List.filter_append, List.filter_cons, FS.isDirEntry]

/-- A faulty middle entry contributes nothing to the direct-file count. -/
theorem directCount_middle_faulty (pre post : List FS) (q : String) :
    directCount (pre ++ FS.faulty q :: post) = directCount (pre ++ post) := by
  simp [directCount, List.filter_append, List.filter_cons, FS.isDirEntry]

/-- C4.  Fault isolation: a panicking subdirectory (uncached, at any
position among its siblings) contributes `(0,0)` to the aggregate, a zero
`SizeUpdate` is emitted for its path at its position, and siblings,
resulting cache and the parent's returned aggregate are exactly those of
the same directory without that branch. -/
theorem claim_C4_fault_isolation :
    ∀ (p q : String) (pre post : List FS) (c : Cache),
      cacheGet c q = none → q ∉ allPathsList pre →
      ∃ s n c₂ e₁ e₂,
        computeSubdirs (pre ++ FS.faulty q :: post) c =
          ⟨(s, n), c₂, e₁ ++ ⟨q, 0, 0⟩ :: e₂⟩
        ∧ computeSubdirs (pre ++ post) c = ⟨(s, n), c₂, e₁ ++ e₂⟩
        ∧ computeResult (FS.dir p (pre ++ FS.faulty q :: post)) c
            = computeResult (FS.dir p (pre ++ post)) c := by
  intro p q pre post c hq hqpre
  have hA : cacheGet (computeSubdirs pre c).cache q = none := by
    rw [cacheFrameList pre c q hqpre]
    exact hq
  have hfault : computeAux (FS.faulty q) (computeSubdirs pre c).cache = none := by
    simp [computeAux, hA]
  have hmid : computeSubdirs (FS.faulty q :: post) (computeSubdirs pre c).cache =
      ⟨((computeSubdirs post (computeSubdirs pre c).cache).res.1,
        (computeSubdirs post (computeSubdirs pre c).cache).res.2),
       (computeSubdirs post (computeSubdirs pre c).cache).cache,
       ⟨q, 0, 0⟩ :: (computeSubdirs post (computeSubdirs pre c).cache).events⟩ := by
    rw [computeSubdirs]
    simp [FS.isDirEntry, hfault, FS.path]
  refine ⟨(computeSubdirs pre c).res.1
            + (computeSubdirs post (computeSubdirs pre c).cache).res.1,
          (computeSubdirs pre c).res.2
            + (computeSubdirs post (computeSubdirs pre c).cache).res.2,
          (computeSubdirs post (computeSubdirs pre c).cache).cache,
          (computeSubdirs pre c).events,
          (computeSubdirs post (computeSubdirs pre c).cache).events,
          ?_, ?_, ?_⟩
  · rw [computeSubdirs_append pre (FS.faulty q :: post) c, hmid]
  · rw [computeSubdirs_append pre post c]
  · unfold computeResult
    simp only [computeAux]
    cases hc : cacheGet c p with
    | some r => rfl
    | none =>
      simp only
      rw [computeSubdirs_append pre (FS.faulty q :: post) c, hmid,
          computeSubdirs_append pre post c,
          directSize_middle_faulty, directCount_middle_faulty]

/-- Witness for C4: injecting a fault between two sibling directories. -/
theorem claim_C4_fault_isolation_witness :
    ∃ s n c₂ e₁ e₂,
      computeSubdirs [FS.dir "r/a" [], FS.faulty "r/x", FS.dir "r/b" []] [] =
        ⟨(s, n), c₂, e₁ ++ ⟨"r/x", 0, 0⟩ :: e₂⟩
      ∧ computeSubdirs [FS.dir "r/a" [], FS.dir "r/b" []] [] = ⟨(s, n), c₂, e₁ ++ e₂⟩
      ∧ computeResult (FS.dir "r" [FS.dir "r/a" [], FS.faulty "r/x", FS.dir "r/b" []]) []
          = computeResult (FS.dir "r" [FS.dir "r/a" [], FS.dir "r/b" []]) [] :=
  claim_C4_fault_isolation "r" "r/x" [FS.dir "r/a" []] [FS.dir "r/b" []] []
    rfl (by decide)

/-- C10.  A panicking subdirectory is never written to the size cache —
after the parent's run its path is still absent, so a later computation
for it misses the memoization check and traverses the filesystem again —
whereas a directory whose entry listing fails does get a `(0,0)` record
inserted. -/
theorem claim_C10_fault_branch_not_cached :
    (∀ (p q : String) (pre post : List FS) (c : Cache) (out : CompOut),
      cacheGet c q = none → q ∉ allPathsList pre → q ∉ allPathsList post →
      q ≠ p →
      computeAux (FS.dir p (pre ++ FS.faulty q :: post)) c = some out →
      cacheGet out.cache q = none)
    ∧ (∀ (q : String) (c : Cache) (out : CompOut),
        cacheGet c q = none → computeAux (FS.denied q) c = some out →
        cacheGet out.cache q = some (0, 0)) := by
  constructor
  · intro p q pre post c out hq hqpre hqpost hqp hrun
    simp only [computeAux] at hrun
    cases hc : cacheGet c p <;> rw [hc] at hrun <;> simp at hrun <;> subst hrun
    · have hA : cacheGet (computeSubdirs pre c).cache q = none := by
        rw [cacheFrameList pre c q hqpre]
        exact hq
      have hfault : computeAux (FS.faulty q) (computeSubdirs pre c).cache = none := by
        simp [computeAux, hA]
      simp only
      rw [cacheGet_insert_ne _ _ _ _ (Ne.symm hqp)]
      rw [computeSubdirs_append pre (FS.faulty q :: post) c]
      simp only
      rw [computeSubdirs]
      simp only [FS.isDirEntry, if_true, hfault]
      show cacheGet (computeSubdirs post (computeSubdirs pre c).cache).cache q = none
      rw [cacheFrameList post (computeSubdirs pre c).cache q hqpost]
      exact hA
    · exact hq
  · intro q c out hq hrun
    simp [computeAux, hq] at hrun
    subst hrun
    exact cacheGet_insert_self ..

/-- Witness for C10 at concrete trees: the faulty path `"r/x"` is absent
from the cache after the parent's run, while the unreadable directory
`"d"` is cached as `(0,0)`. -/
theorem claim_C10_fault_branch_not_cached_witness :
    cacheGet [("r", (0, 0)), ("r/b", (0, 0)), ("r/a", (0, 0))] "r/x" = none
    ∧ cacheGet [("d", (0, 0))] "d" = some (0, 0) :=
  ⟨claim_C10_fault_branch_not_cached.1 "r" "r/x" [FS.dir "r/a" []] [FS.dir "r/b" []]
      [] ⟨(0, 0), [("r", (0, 0)), ("r/b", (0, 0)), ("r/a", (0, 0))],
          [⟨"r/a", 0, 0⟩, ⟨"r/x", 0, 0⟩, ⟨"r/b", 0, 0⟩, ⟨"r", 0, 0⟩]⟩
      rfl (by decide) (by decide) (by decide) (by decide),
   claim_C10_fault_branch_not_cached.2 "d" [] ⟨(0, 0), [("d", (0, 0))], [⟨"d", 0, 0⟩]⟩
      rfl rfl⟩

/-! ## Refinement of the computation to the spec's pure recursive sum -/

mutual

/-- Over a tree with pairwise-distinct paths, none of them cached, the
computation returns exactly the spec's pure recursive aggregate. -/
theorem specRefine (t : FS) (c : Cache)
    (hfresh : ∀ q ∈ allPaths t, cacheGet c q = none)
    (hnodup : (allPaths t).Nodup) :
    computeResult t c = specSize t := by
  cases t with
  | file p sz =>
    have hc : cacheGet c p = none := hfresh p (by simp [allPaths])
    simp [computeResult, computeAux, hc, specSize]
  | denied p =>
    have hc : cacheGet c p = none := hfresh p (by simp [allPaths])
    simp [computeResult, computeAux, hc, specSize]
  | faulty p =>
    have hc : cacheGet c p = none := hfresh p (by simp [allPaths])
    simp [computeResult, computeAux, hc, specSize]
  | dir p entries =>
    have hc : cacheGet c p = none := hfresh p (by simp [allPaths])
    have hfresh' : ∀ q ∈ allPathsList entries, cacheGet c q = none := by
      intro q hqm
      exact hfresh q (by simp [allPaths, hqm])
    have hnodup' : (allPathsList entries).Nodup := by
      rw [allPaths] at hnodup
      exact hnodup.of_cons
    have hlist := specRefineList entries c hfresh' hnodup'
    simp only [computeResult, computeAux, hc, specSize]
    exact hlist.symm

/-- List version of `specRefine`: the spec-side sum of the contributions
of a directory's entries equals the direct-file totals plus the result of
the cache-threaded subdirectory fold. -/
theorem specRefineList (l : List FS) (c : Cache)
    (hfresh : ∀ q ∈ allPathsList l, cacheGet c q = none)
    (hnodup : (allPathsList l).Nodup) :
    specSizeList l =
      (directSize l + (computeSubdirs l c).res.1,
       directCount l + (computeSubdirs l c).res.2) := by
  match l with
  | [] => simp [specSizeList, computeSubdirs, directSize, directCount]
  | t :: rest =>
    have hfreshT : ∀ q ∈ allPaths t, cacheGet c q = none := by
      intro q hqm
      exact hfresh q (by rw [allPathsList, List.mem_append]; exact Or.inl hqm)
    have hfreshR : ∀ q ∈ allPathsList rest, cacheGet c q = none := by
      intro q hqm
      exact hfresh q (by rw [allPathsList, List.mem_append]; exact Or.inr hqm)
    have hnodupT : (allPaths t).Nodup := by
      rw [allPathsList] at hnodup
      exact (List.nodup_append.mp hnodup).1
    have hnodupR : (allPathsList rest).Nodup := by
      rw [allPathsList] at hnodup
      exact (List.nodup_append.mp hnodup).2.1
    have hdisj : ∀ q ∈ allPathsList rest, q ∉ allPaths t := by
      rw [allPathsList] at hnodup
      intro q hq hq'
      exact (List.nodup_append.mp hnodup).2.2 hq' hq
    cases t with
    | file p sz =>
      have ih := specRefineList rest c hfreshR hnodupR
      rw [computeSubdirs]
      simp only [FS.isDirEntry, Bool.false_eq_true, if_false]
      rw [specSizeList, ih]
      have hds : directSize (FS.file p sz :: rest) = sz + directSize rest := by
        simp [directSize, List.filter_cons, FS.isDirEntry, FS.entrySize]
      have hdc : directCount (FS.file p sz :: rest) = 1 + directCount rest := by
        simp [directCount, List.filter_cons, FS.isDirEntry]
        omega
      rw [hds, hdc]
      simp only [Prod.mk.injEq]
      omega
    | faulty p =>
      have hc : cacheGet c p = none := hfreshT p (by simp [allPaths])
      have hca : computeAux (FS.faulty p) c = none := by
        simp [computeAux, hc]
      have ih := specRefineList rest c hfreshR hnodupR
      rw [computeSubdirs]
      simp only [FS.isDirEntry, if_true, hca]
      rw [specSizeList, ih]
      have hds : directSize (FS.faulty p :: rest) = directSize rest := by
        simp [directSize, List.filter_cons, FS.isDirEntry]
      have hdc : directCount (FS.faulty p :: rest) = directCount rest := by
        simp [directCount, List.filter_cons, FS.isDirEntry]
      rw [hds, hdc]
      simp only [specSize, Prod.mk.injEq]
      omega
    | denied p =>
      have hc : cacheGet c p = none := hfreshT p (by simp [allPaths])
      have hca : computeAux (FS.denied p) c =
          some ⟨(0, 0), cacheInsert c p (0, 0), [⟨p, 0, 0⟩]⟩ := by
        simp [computeAux, hc]
      have hfreshR' : ∀ q ∈ allPathsList rest,
          cacheGet (cacheInsert c p (0, 0)) q = none := by
        intro q hqm
        have hqp : p ≠ q := by
          intro hh
          exact hdisj q hqm (by simp [allPaths, hh])
        rw [cacheGet_insert_ne _ _ _ _ hqp]
        exact hfreshR q hqm
      have ih := specRefineList rest (cacheInsert c p (0, 0)) hfreshR' hnodupR
      rw [computeSubdirs]
      simp only [FS.isDirEntry, if_true, hca]
      rw [specSizeList, ih]
      have hds : directSize (FS.denied p :: rest) = directSize rest := by
        simp [directSize, List.filter_cons, FS.isDirEntry]
      have hdc : directCount (FS.denied p :: rest) = directCount rest := by
        simp [directCount, List.filter_cons, FS.isDirEntry]
      rw [hds, hdc]
      simp only [specSize, Prod.mk.injEq]
      omega
    | dir p entries =>
      have hc : cacheGet c p = none := hfreshT p (by simp [allPaths])
      cases hca : computeAux (FS.dir p entries) c with
      | none => exact absurd hca (by simp [computeAux, hc])
      | some out =>
        have ihT := specRefine (FS.dir p entries) c hfreshT hnodupT
        rw [computeResult, hca] at ihT
        have hfreshR' : ∀ q ∈ allPathsList rest, cacheGet out.cache q = none := by
          intro q hqm
          rw [cacheFrame (FS.dir p entries) c out hca q (hdisj q hqm)]
          exact hfreshR q hqm
        have ih := specRefineList rest out.cache hfreshR' hnodupR
        rw [computeSubdirs]
        simp only [FS.isDirEntry, if_true, hca]
        rw [specSizeList, ih, ← ihT]
        have hds : directSize (FS.dir p entries :: rest) = directSize rest := by
          simp [directSize, List.filter_cons, FS.isDirEntry]
        have hdc : directCount (FS.dir p entries :: rest) = directCount rest := by
          simp [directCount, List.filter_cons, FS.isDirEntry]
        rw [hds, hdc]
        simp only [Prod.mk.injEq]
        omega

end

/-- C1.  For every directory tree (with pairwise-distinct paths, none of
them already cached), the pair returned by the recursive size computation
equals the spec's recursive sum: direct non-directory entry sizes and
counts plus the recursive results of the subdirectory entries, a
panicking subdirectory contributing `(0,0)` — `specSize` is defined by
exactly that recurrence. -/
theorem claim_C1_recursive_sum (t : FS) (c : Cache)
    (hfresh : ∀ q ∈ allPaths t, cacheGet c q = none)
    (hnodup : (allPaths t).Nodup) :
    computeResult t c = specSize t :=
  specRefine t c hfresh hnodup

/-- Witness for C1 at the spec's §8 scenario: one 10-byte file next to a
subdirectory holding a 20-byte and a 30-byte file gives `(60, 3)`. -/
theorem claim_C1_recursive_sum_witness :
    computeResult
        (FS.dir "r" [FS.file "r/f" 10,
          FS.dir "r/s" [FS.file "r/s/a" 20, FS.file "r/s/b" 30]]) []
      = specSize
          (FS.dir "r" [FS.file "r/f" 10,
            FS.dir "r/s" [FS.file "r/s/a" 20, FS.file "r/s/b" 30]])
    ∧ specSize
        (FS.dir "r" [FS.file "r/f" 10,
          FS.dir "r/s" [FS.file "r/s/a" 20, FS.file "r/s/b" 30]]) = (60, 3) :=
  ⟨claim_C1_recursive_sum
      (FS.dir "r" [FS.file "r/f" 10,
        FS.dir "r/s" [FS.file "r/s/a" 20, FS.file "r/s/b" 30]]) []
      (by decide) (by decide),
   by decide⟩

/-! ## The comparator of the listing sort -/

/-- Core `compare` on strings is the lexicographic order on the
underlying character lists. -/
theorem strCompare_eq_lt_iff (s t : String) :
    compare s t = Ordering.lt ↔ List.Lex (· < ·) s.data t.data := by
  unfold compare instOrdString compareOfLessAndEq
  simp only
  split_ifs with h1 h2
  · simp only [true_iff]
    exact (List.lt_iff_lex_lt _ _).mp h1
  · simp only [false_iff]
    exact fun hx => absurd ((List.lt_iff_lex_lt _ _).mpr hx) h1
  · simp only [false_iff]
    exact fun hx => absurd ((List.lt_iff_lex_lt _ _).mpr hx) h1

/-- Core `compare` on strings answers `.eq` exactly on equal strings. -/
theorem strCompare_eq_eq_iff (s t : String) :
    compare s t = Ordering.eq ↔ s = t :=
  Batteries.BEqCmp.cmp_iff_eq

/-- `.gt` under core `compare` is the reversed lexicographic order. -/
theorem strCompare_eq_gt_iff (s t : String) :
    compare s t = Ordering.gt ↔ List.Lex (· < ·) t.data s.data := by
  rw [Batteries.OrientedCmp.cmp_eq_gt, strCompare_eq_lt_iff]

/-- "Not greater" under core `compare` is the linear-order `≤` on
strings. -/
theorem strCompare_ne_gt_iff_le (s t : String) :
    compare s t ≠ Ordering.gt ↔ s ≤ t := by
  rw [Ne, strCompare_eq_gt_iff, String.le_iff_toList_le, ← not_lt]
  exact Iff.rfl

/-- The comparator's non-strict order coincides with the order the
spec's words describe. -/
theorem nodeLe_iff_specLe (a b : FileNode) : nodeLe a b ↔ specLe a b := by
  unfold nodeLe specLe compareNodes
  cases ha : a.is_dir <;> cases hb : b.is_dir <;> simp [ha, hb] <;>
  · by_cases hss : a.size.getD 0 = b.size.getD 0
    · rw [if_pos hss, hss]
      rw [← ne_eq, strCompare_ne_gt_iff_le, String.le_iff_toList_le]
      simp [String.toList]
    · rw [if_neg hss, Nat.compare_eq_gt]
      constructor
      · intro h
        exact Or.inl (by omega)
      · rintro (h | ⟨heq, _⟩)
        · omega
        · exact absurd heq hss

/-- The spec's ordering is total. -/
theorem specLe_total (a b : FileNode) : specLe a b ∨ specLe b a := by
  unfold specLe
  cases ha : a.is_dir <;> cases hb : b.is_dir
  · rcases Nat.lt_trichotomy (a.size.getD 0) (b.size.getD 0) with h | h | h
    · exact Or.inr (Or.inr ⟨rfl, Or.inl h⟩)
    · rcases le_total (lowercase a.name) (lowercase b.name) with hle | hle
      · exact Or.inl (Or.inr ⟨rfl, Or.inr ⟨h, hle⟩⟩)
      · exact Or.inr (Or.inr ⟨rfl, Or.inr ⟨h.symm, hle⟩⟩)
    · exact Or.inl (Or.inr ⟨rfl, Or.inl h⟩)
  · exact Or.inr (Or.inl ⟨rfl, rfl⟩)
  · exact Or.inl (Or.inl ⟨rfl, rfl⟩)
  · rcases Nat.lt_trichotomy (a.size.getD 0) (b.size.getD 0) with h | h | h
    · exact Or.inr (Or.inr ⟨rfl, Or.inl h⟩)
    · rcases le_total (lowercase a.name) (lowercase b.name) with hle | hle
      · exact Or.inl (Or.inr ⟨rfl, Or.inr ⟨h, hle⟩⟩)
      · exact Or.inr (Or.inr ⟨rfl, Or.inr ⟨h.symm, hle⟩⟩)
    · exact Or.inl (Or.inr ⟨rfl, Or.inl h⟩)

/-- The spec's ordering is transitive. -/
theorem specLe_trans (a b c : FileNode) (hab : specLe a b) (hbc : specLe b c) :
    specLe a c := by
  unfold specLe at *
  rcases hab with ⟨ha, hb⟩ | ⟨hk1, hr1⟩
  · rcases hbc with ⟨hb', _⟩ | ⟨hk2, _⟩
    · rw [hb] at hb'
      cases hb'
    · exact Or.inl ⟨ha, by rw [← hk2, hb]⟩
  · rcases hbc with ⟨hb', hc⟩ | ⟨hk2, hr2⟩
    · exact Or.inl ⟨by rw [hk1, hb'], hc⟩
    · refine Or.inr ⟨by rw [hk1, hk2], ?_⟩
      rcases hr1 with h1 | ⟨e1, l1⟩
      · rcases hr2 with h2 | ⟨e2, _⟩
        · exact Or.inl (by omega)
        · exact Or.inl (by omega)
      · rcases hr2 with h2 | ⟨e2, l2⟩
        · exact Or.inl (by omega)
        · exact Or.inr ⟨by omega, le_trans l1 l2⟩

/-- C7.  The listing's sort: the result is a permutation of the input,
ordered by the spec's relation (directories before files; within the
same kind size descending with `None` as 0; ties by case-insensitive
name ascending), and the spec's four-entry example sorts to
`dirB, dirA, fileC, fileZ`. -/
theorem claim_C7_sort_order :
    (∀ l : List FileNode, List.Perm (sortChildren l) l)
    ∧ (∀ l : List FileNode, (sortChildren l).Pairwise specLe)
    ∧ sortChildren
        [FileNode.mk "dirA" "dirA" none 0 true 0 none,
         FileNode.mk "dirB" "dirB" (some 500) 0 true 0 none,
         FileNode.mk "fileC" "fileC" (some 300) 300 false 1 none,
         FileNode.mk "fileZ" "fileZ" (some 300) 300 false 1 none]
      = [FileNode.mk "dirB" "dirB" (some 500) 0 true 0 none,
         FileNode.mk "dirA" "dirA" none 0 true 0 none,
         FileNode.mk "fileC" "fileC" (some 300) 300 false 1 none,
         FileNode.mk "fileZ" "fileZ" (some 300) 300 false 1 none] := by
  refine ⟨fun l => List.perm_insertionSort nodeLe l, fun l => ?_, rfl⟩
  haveI ht : IsTotal FileNode nodeLe := ⟨fun a b => by
    rw [nodeLe_iff_specLe, nodeLe_iff_specLe]
    exact specLe_total a b⟩
  haveI htr : IsTrans FileNode nodeLe := ⟨fun a b c hab hbc => by
    rw [nodeLe_iff_specLe] at hab hbc ⊢
    exact specLe_trans a b c hab hbc⟩
  have hs := List.sorted_insertionSort nodeLe l
  exact List.Pairwise.imp (fun h => (nodeLe_iff_specLe _ _).mp h) hs

/-! ## Claim theorems: the listing command -/

/-- C8.  `analyze_directory` never returns an error: for every target
(and cache state) it returns `Ok` with a root node, and when the target
is not a readable directory (a plain file, an unreadable or nonexistent
path) the returned node simply has an empty children list. -/
theorem claim_C8_analyze_never_errs :
    (∀ (root : FS) (cache : Cache),
      ∃ node, analyzeDirectory root cache = Except.ok node)
    ∧ (∀ (root : FS) (cache : Cache), (∀ p es, root ≠ FS.dir p es) →
        ∃ node, analyzeDirectory root cache = Except.ok node
          ∧ node.children = some ([] : List FileNode)) := by
  constructor
  · intro root cache
    exact ⟨_, rfl⟩
  · intro root cache hnd
    cases root with
    | dir p es => exact absurd rfl (hnd p es)
    | file p sz => exact ⟨_, rfl, rfl⟩
    | denied p => exact ⟨_, rfl, rfl⟩
    | faulty p => exact ⟨_, rfl, rfl⟩

/-- Witness for C8 at a concrete unreadable target. -/
theorem claim_C8_analyze_never_errs_witness :
    ∃ node, analyzeDirectory (FS.denied "x") [] = Except.ok node
      ∧ node.children = some ([] : List FileNode) :=
  claim_C8_analyze_never_errs.2 (FS.denied "x") []
    (fun _ _ h => FS.noConfusion h)

/-- C9.  The root node returned by `analyze_directory` always has
`is_dir = true` and `children = Some(..)`, for every target — the field
is the literal `true` of lib.rs line 304, never derived from the
filesystem entry, so a plain-file or nonexistent target is still
reported as a directory. -/
theorem claim_C9_root_always_dir :
    ∀ (root : FS) (cache : Cache),
      ∃ node, analyzeDirectory root cache = Except.ok node
        ∧ node.is_dir = true ∧ ∃ l, node.children = some l :=
  fun _ _ => ⟨_, rfl, rfl, _, rfl⟩

/-! ## The in-progress guard under concurrent interleaving -/

/-- Replacing an element that the counted predicate rejects adds exactly
the new element's contribution to `countP`. -/
theorem countP_set_of_not {α : Type} (f : α → Bool) (l : List α) (i : Nat)
    (a old : α) (hold : l[i]? = some old) (hf : f old = false) :
    (l.set i a).countP f = l.countP f + (if f a then 1 else 0) := by
  induction l generalizing i with
  | nil => simp at hold
  | cons x xs ih =>
    cases i with
    | zero =>
      simp only [List.getElem?_cons_zero, Option.some.injEq] at hold
      subst hold
      simp [List.set, List.countP_cons, hf]
    | succ n =>
      simp only [List.getElem?_cons_succ] at hold
      simp [List.set, List.countP_cons, ih n hold]
      omega

/-- One step that is not `end(p)` preserves the at-most-one invariant
for `p`: at most one caller has returned `true`, and if one has, `p` is
still in the in-progress set. -/
theorem applyAct_atMostOne (p : String) (s s' : GState) (a : GAct)
    (ha : applyAct s a = some s') (hend : a ≠ GAct.envEnd p)
    (h1 : trueCountP p s ≤ 1)
    (h2 : 1 ≤ trueCountP p s → p ∈ s.inprog) :
    trueCountP p s' ≤ 1 ∧ (1 ≤ trueCountP p s' → p ∈ s'.inprog) := by
  cases a with
  | obsCache i =>
    simp only [applyAct] at ha
    split at ha
    case h_1 q hti =>
      unfold trueCountP at h1 h2 ⊢
      split_ifs at ha with hq <;>
        (injection ha with ha; subst ha; dsimp only;
         rw [countP_set_of_not _ _ _ _ _ hti (by simp), if_neg (by simp),
           Nat.add_zero];
         exact ⟨h1, h2⟩)
    case h_2 => cases ha
  | obsSet i =>
    simp only [applyAct] at ha
    split at ha
    case h_1 q hti =>
      unfold trueCountP at h1 h2 ⊢
      split_ifs at ha with hq
      · injection ha with ha
        subst ha
        dsimp only
        rw [countP_set_of_not _ _ _ _ _ hti (by simp), if_neg (by simp),
          Nat.add_zero]
        exact ⟨h1, h2⟩
      · injection ha with ha
        subst ha
        dsimp only
        rw [countP_set_of_not _ _ _ _ _ hti (by simp)]
        by_cases hqp : q = p
        · subst hqp
          rw [if_pos (by simp)]
          have hc0 : List.countP
              (fun tp => decide (tp.1 = q ∧ tp.2 = Phase.done true)) s.threads = 0 := by
            by_contra hne
            exact hq (h2 (by omega))
          rw [hc0]
          exact ⟨by omega, fun _ => List.mem_cons_self q _⟩
        · rw [if_neg (by simp [hqp]), Nat.add_zero]
          exact ⟨h1, fun hge => List.mem_cons_of_mem _ (h2 hge)⟩
    case h_2 => cases ha
  | envInsert q =>
    simp only [applyAct] at ha
    injection ha with ha
    subst ha
    exact ⟨h1, h2⟩
  | envEnd q =>
    simp only [applyAct] at ha
    injection ha with ha
    subst ha
    refine ⟨h1, fun hge => ?_⟩
    have hp := h2 hge
    have hqp : p ≠ q := fun h => hend (by rw [h])
    simp only [List.mem_filter]
    exact ⟨hp, by simpa using hqp⟩

/-- One step that is neither `end(p)` nor a cache insert for `p`
preserves the exactly-one invariant for `p`: `p` stays uncached, at most
one caller has returned `true`, `p` is in the in-progress set exactly
when one has, and a caller can only have returned `false` after some
caller returned `true`. -/
theorem applyAct_exactlyOne (p : String) (s s' : GState) (a : GAct)
    (ha : applyAct s a = some s') (hend : a ≠ GAct.envEnd p)
    (hins : a ≠ GAct.envInsert p)
    (hB1 : p ∉ s.cache) (hB2 : trueCountP p s ≤ 1)
    (hB3 : p ∈ s.inprog ↔ trueCountP p s = 1)
    (hB4 : (∃ tp ∈ s.threads, tp.1 = p ∧ tp.2 = Phase.done false) →
      trueCountP p s = 1) :
    p ∉ s'.cache ∧ trueCountP p s' ≤ 1
    ∧ (p ∈ s'.inprog ↔ trueCountP p s' = 1)
    ∧ ((∃ tp ∈ s'.threads, tp.1 = p ∧ tp.2 = Phase.done false) →
        trueCountP p s' = 1) := by
  cases a with
  | obsCache i =>
    simp only [applyAct] at ha
    split at ha
    case h_1 q hti =>
      unfold trueCountP at hB2 hB3 hB4 ⊢
      split_ifs at ha with hq <;> injection ha with ha <;> subst ha <;>
        dsimp only <;>
        rw [countP_set_of_not _ _ _ _ _ hti (by simp), if_neg (by simp),
          Nat.add_zero] <;>
        refine ⟨hB1, hB2, hB3, ?_⟩
      · rintro ⟨tp, htp, hp1, hp2⟩
        rcases List.mem_or_eq_of_mem_set htp with hmem | hnew
        · exact hB4 ⟨tp, hmem, hp1, hp2⟩
        · subst hnew
          have hqp : q = p := hp1
          rw [hqp] at hq
          exact absurd hq hB1
      · rintro ⟨tp, htp, hp1, hp2⟩
        rcases List.mem_or_eq_of_mem_set htp with hmem | hnew
        · exact hB4 ⟨tp, hmem, hp1, hp2⟩
        · rw [hnew] at hp2
          cases hp2
    case h_2 => cases ha
  | obsSet i =>
    simp only [applyAct] at ha
    split at ha
    case h_1 q hti =>
      unfold trueCountP at hB2 hB3 hB4 ⊢
      split_ifs at ha with hq
      · injection ha with ha
        subst ha
        dsimp only
        rw [countP_set_of_not _ _ _ _ _ hti (by simp), if_neg (by simp),
          Nat.add_zero]
        refine ⟨hB1, hB2, hB3, ?_⟩
        rintro ⟨tp, htp, hp1, hp2⟩
        rcases List.mem_or_eq_of_mem_set htp with hmem | hnew
        · exact hB4 ⟨tp, hmem, hp1, hp2⟩
        · rw [hnew] at hp1
          have hqp : q = p := hp1
          exact hB3.mp (hqp ▸ hq)
      · injection ha with ha
        subst ha
        dsimp only
        rw [countP_set_of_not _ _ _ _ _ hti (by simp)]
        by_cases hqp : q = p
        · subst hqp
          rw [if_pos (by simp)]
          have hc0 : List.countP
              (fun tp => decide (tp.1 = q ∧ tp.2 = Phase.done true))
              s.threads = 0 := by
            rcases Nat.lt_or_ge 0 (List.countP
                (fun tp => decide (tp.1 = q ∧ tp.2 = Phase.done true))
                s.threads) with hpos | hz
            · exact absurd (hB3.mpr (by omega)) hq
            · omega
          rw [hc0]
          refine ⟨hB1, by omega, ?_, fun _ => rfl⟩
          simp
        · rw [if_neg (by simp [hqp]), Nat.add_zero]
          refine ⟨hB1, hB2, ?_, ?_⟩
          · rw [← hB3]
            simp only [List.mem_cons]
            constructor
            · rintro (h | h)
              · exact absurd h.symm hqp
              · exact h
            · exact Or.inr
          · rintro ⟨tp, htp, hp1, hp2⟩
            rcases List.mem_or_eq_of_mem_set htp with hmem | hnew
            · exact hB4 ⟨tp, hmem, hp1, hp2⟩
            · rw [hnew] at hp2
              cases hp2
    case h_2 => cases ha
  | envInsert q =>
    simp only [applyAct] at ha
    injection ha with ha
    subst ha
    have hqp : p ≠ q := fun h => hins (by rw [h])
    refine ⟨?_, hB2, hB3, hB4⟩
    simp only [List.mem_cons]
    rintro (h | h)
    · exact hqp h
    · exact hB1 h
  | envEnd q =>
    simp only [applyAct] at ha
    injection ha with ha
    subst ha
    have hqp : p ≠ q := fun h => hend (by rw [h])
    refine ⟨hB1, hB2, ?_, hB4⟩
    constructor
    · intro h
      exact hB3.mp (List.mem_filter.mp h).1
    · intro h
      exact List.mem_filter.mpr ⟨hB3.mpr h, by simpa using hqp⟩

/-- The at-most-one invariant holds along any trace without `end(p)`. -/
theorem runActs_atMostOne (p : String) (acts : List GAct) (s s' : GState)
    (hrun : runActs s acts = some s') (hend : GAct.envEnd p ∉ acts)
    (h1 : trueCountP p s ≤ 1)
    (h2 : 1 ≤ trueCountP p s → p ∈ s.inprog) :
    trueCountP p s' ≤ 1 ∧ (1 ≤ trueCountP p s' → p ∈ s'.inprog) := by
  induction acts generalizing s with
  | nil =>
    rw [runActs] at hrun
    injection hrun with hrun
    subst hrun
    exact ⟨h1, h2⟩
  | cons a rest ih =>
    rw [runActs] at hrun
    split at hrun
    case h_1 s1 hstep =>
      have hane : a ≠ GAct.envEnd p := fun h => hend (by rw [h]; exact List.mem_cons_self _ _)
      have hrest : GAct.envEnd p ∉ rest := fun h => hend (List.mem_cons_of_mem _ h)
      obtain ⟨g1, g2⟩ := applyAct_atMostOne p s s1 a hstep hane h1 h2
      exact ih s1 hrun hrest g1 g2
    case h_2 => cases hrun

/-- The exactly-one invariant holds along any trace without `end(p)` and
without a cache insert for `p`. -/
theorem runActs_exactlyOne (p : String) (acts : List GAct) (s s' : GState)
    (hrun : runActs s acts = some s') (hend : GAct.envEnd p ∉ acts)
    (hins : GAct.envInsert p ∉ acts)
    (hB1 : p ∉ s.cache) (hB2 : trueCountP p s ≤ 1)
    (hB3 : p ∈ s.inprog ↔ trueCountP p s = 1)
    (hB4 : (∃ tp ∈ s.threads, tp.1 = p ∧ tp.2 = Phase.done false) →
      trueCountP p s = 1) :
    p ∉ s'.cache ∧ trueCountP p s' ≤ 1
    ∧ (p ∈ s'.inprog ↔ trueCountP p s' = 1)
    ∧ ((∃ tp ∈ s'.threads, tp.1 = p ∧ tp.2 = Phase.done false) →
        trueCountP p s' = 1) := by
  induction acts generalizing s with
  | nil =>
    rw [runActs] at hrun
    injection hrun with hrun
    subst hrun
    exact ⟨hB1, hB2, hB3, hB4⟩
  | cons a rest ih =>
    rw [runActs] at hrun
    split at hrun
    case h_1 s1 hstep =>
      have hane : a ≠ GAct.envEnd p := fun h => hend (by rw [h]; exact List.mem_cons_self _ _)
      have hani : a ≠ GAct.envInsert p := fun h => hins (by rw [h]; exact List.mem_cons_self _ _)
      have hrest : GAct.envEnd p ∉ rest := fun h => hend (List.mem_cons_of_mem _ h)
      have hresti : GAct.envInsert p ∉ rest := fun h => hins (List.mem_cons_of_mem _ h)
      obtain ⟨g1, g2, g3, g4⟩ :=
        applyAct_exactlyOne p s s1 a hstep hane hani hB1 hB2 hB3 hB4
      exact ih s1 hrun hrest hresti g1 g2 g3 g4
    case h_2 => cases hrun

/-- C2.  Per-path mutual exclusion of `try_mark_in_progress` under
arbitrary interleaving of its two lock-protected sections: (i) along any
trace in which `end(p)` is not called, at most one caller for `p`
receives `true`; (ii) if additionally no computation inserts `p` into
the cache, `p` starts uncached and not in progress, and every caller for
`p` has returned, then exactly one of them received `true`; (iii) a
caller is never blocked by the state of other paths: at each of its two
program points its next atomic step is always enabled. -/
theorem claim_C2_try_begin_mutual_exclusion (p : String) :
    (∀ (init final : GState) (acts : List GAct),
        (∀ tp ∈ init.threads, tp.2 = Phase.start) →
        GAct.envEnd p ∉ acts →
        runActs init acts = some final →
        trueCountP p final ≤ 1)
    ∧ (∀ (init final : GState) (acts : List GAct),
        (∀ tp ∈ init.threads, tp.2 = Phase.start) →
        GAct.envEnd p ∉ acts → GAct.envInsert p ∉ acts →
        p ∉ init.cache → p ∉ init.inprog →
        runActs init acts = some final →
        (∀ tp ∈ final.threads, tp.1 = p → ∃ b, tp.2 = Phase.done b) →
        (∃ tp ∈ final.threads, tp.1 = p) →
        trueCountP p final = 1)
    ∧ (∀ (s : GState) (i : Nat) (q : String),
        (s.threads[i]? = some (q, Phase.start) →
          ∃ s', applyAct s (GAct.obsCache i) = some s')
        ∧ (s.threads[i]? = some (q, Phase.checked) →
          ∃ s', applyAct s (GAct.obsSet i) = some s')) := by
  refine ⟨?_, ?_, ?_⟩
  · intro init final acts hstart hend hrun
    have hc0 : trueCountP p init = 0 := by
      unfold trueCountP
      rw [List.countP_eq_zero]
      intro tp htp
      rw [hstart tp htp]
      simp
    exact (runActs_atMostOne p acts init final hrun hend (by omega)
      (by omega)).1
  · intro init final acts hstart hend hins hcache hinprog hrun hdone hex
    have hc0 : trueCountP p init = 0 := by
      unfold trueCountP
      rw [List.countP_eq_zero]
      intro tp htp
      rw [hstart tp htp]
      simp
    obtain ⟨_, g2, g3, g4⟩ := runActs_exactlyOne p acts init final hrun hend
      hins hcache (by omega)
      (by rw [hc0]; exact iff_of_false hinprog (by omega))
      (by rintro ⟨tp, htp, _, hp2⟩
          rw [hstart tp htp] at hp2
          cases hp2)
    rcases hex with ⟨tp, htp, hp1⟩
    obtain ⟨b, hb⟩ := hdone tp htp hp1
    cases b with
    | true =>
      have hpos : 0 < trueCountP p final := by
        unfold trueCountP
        rw [List.countP_pos_iff]
        exact ⟨tp, htp, by simp [hp1, hb]⟩
      omega
    | false => exact g4 ⟨tp, htp, hp1, hb⟩
  · intro s i q
    constructor
    · intro h
      by_cases hc : q ∈ s.cache
      · exact ⟨{ s with threads := s.threads.set i (q, Phase.done false) },
          by simp [applyAct, h, hc]⟩
      · exact ⟨{ s with threads := s.threads.set i (q, Phase.checked) },
          by simp [applyAct, h, hc]⟩
    · intro h
      by_cases hc : q ∈ s.inprog
      · exact ⟨{ s with threads := s.threads.set i (q, Phase.done false) },
          by simp [applyAct, h, hc]⟩
      · exact ⟨⟨s.cache, q :: s.inprog, s.threads.set i (q, Phase.done true)⟩,
          by simp [applyAct, h, hc]⟩

/-- Witness for C2: two concurrent callers for path `"a"`, both passing
the cache check before either takes the guard lock — the interleaving
the spec's race discussion is about.  The first `obsSet` wins (`true`),
the second observes the in-progress set and returns `false`; exactly one
caller received `true`, and a caller at the cache-check point is always
enabled. -/
theorem claim_C2_try_begin_mutual_exclusion_witness :
    trueCountP "a" ⟨[], ["a"], [("a", Phase.done true), ("a", Phase.done false)]⟩ ≤ 1
    ∧ trueCountP "a" ⟨[], ["a"], [("a", Phase.done true), ("a", Phase.done false)]⟩ = 1
    ∧ (∃ s', applyAct ⟨[], [], [("a", Phase.start)]⟩ (GAct.obsCache 0) = some s') :=
  ⟨(claim_C2_try_begin_mutual_exclusion "a").1
      ⟨[], [], [("a", Phase.start), ("a", Phase.start)]⟩
      ⟨[], ["a"], [("a", Phase.done true), ("a", Phase.done false)]⟩
      [GAct.obsCache 0, GAct.obsCache 1, GAct.obsSet 0, GAct.obsSet 1]
      (by decide) (by decide) (by decide),
   (claim_C2_try_begin_mutual_exclusion "a").2.1
      ⟨[], [], [("a", Phase.start), ("a", Phase.start)]⟩
      ⟨[], ["a"], [("a", Phase.done true), ("a", Phase.done false)]⟩
      [GAct.obsCache 0, GAct.obsCache 1, GAct.obsSet 0, GAct.obsSet 1]
      (by decide) (by decide) (by decide) (by decide) (by decide) (by decide)
      (by decide) (by decide),
   ((claim_C2_try_begin_mutual_exclusion "a").2.2
      ⟨[], [], [("a", Phase.start)]⟩ 0 "a").1 (by decide)⟩
